import Mathlib

/-!
Verification of the lazy sequence combinator library (`chapter_1`).

The library offers stateful iterator objects (`Range`, `Bounds`, `Filter`),
equivalent closure forms (`range_fn`, `bounds_fn`), bidirectional adapters
between the two representations (`iter_to_closure`, `closure_to_iter`), and a
non-blocking poll protocol (`Poll`, `Notifier`, `MultiplexedIterator`).

Shallow embedding conventions:
* A stateful producer is a state type `σ` together with a step function
  `σ → Option T × σ`: one `next()` call returns the optional item and the
  updated state (`none` is the terminal marker, Rust's `None`).
* Machine integers are modelled as `Int` (the source is generic over any
  `PartialOrd + AddAssign + Clone` type; its tests instantiate at `usize`).
* A generic inner iterator (Rust's `I: Iterator` / `F: FnMut() -> Option<T>`)
  that has been driven to a fused state is modelled extensionally by its
  remaining output `List T`; pulling `inner.next()` is taking the head.  The
  `Bounds`/`Filter` loops then recurse structurally on that list exactly as
  the Rust `loop { match self.inner.next() { .. } }` does.
-/

/-- Iterate a step function: the state after `k` successive `next()` calls. -/
def stepN {σ T : Type} (next : σ → Option T × σ) : Nat → σ → σ
  | 0, s => s
  | k + 1, s => stepN next k (next s).2

/-- The result of the `k`-th (0-indexed) `next()` call, starting from state `s`. -/
def nthOut {σ T : Type} (next : σ → Option T × σ) (s : σ) (k : Nat) : Option T :=
  (next (stepN next k s)).1

/-- Drive a producer like the test harness does: collect produced items until
the first terminal result, making at most `fuel` calls. -/
def collectN {σ T : Type} (next : σ → Option T × σ) : Nat → σ → List T
  | 0, _ => []
  | fuel + 1, s =>
    match next s with
    | (some v, s2) => v :: collectN next fuel s2
    | (none, _) => []

/-! ## The `Range` generator (object form)

```rust
pub struct Range<T> { cur: T, end: T, incr: T }
impl<T> Range<T> {
    pub fn new(start: T, end: T, incr: T) -> Self {
        Self { cur: start, end, incr }
    }
}
impl<T> Iterator for Range<T> where T: AddAssign + PartialOrd + Clone {
    fn next(&mut self) -> Option<T> {
        match &self.cur {
            v if *v < self.end => {
                let ret = self.cur.clone();
                self.cur += self.incr.clone();
                ret.into()
            }
            _ => None,
        }
    }
}
```
-/

structure Range where
  cur : Int
  «end» : Int
  incr : Int
deriving DecidableEq, Repr

def Range.new (start «end» incr : Int) : Range :=
  { cur := start, «end» := «end», incr := incr }

def Range.next (r : Range) : Option Int × Range :=
  if r.cur < r.«end» then (some r.cur, { r with cur := r.cur + r.incr })
  else (none, r)

/-- The result of the `k`-th `next()` call on `Range::new(start, end, incr)`. -/
def rangeNth (start «end» incr : Int) (k : Nat) : Option Int :=
  nthOut Range.next (Range.new start «end» incr) k

/-- The full output of `Range::new(start, end, incr)` driven to exhaustion
(for a positive increment, `(end - start).toNat` calls can produce an item,
so one more call of fuel always reaches the terminal marker). -/
def rangeOut (start «end» incr : Int) : List Int :=
  collectN Range.next ((«end» - start).toNat + 1) (Range.new start «end» incr)

/-! ## The `range_fn` closure form

```rust
pub mod range_fn {
    pub fn new<T>(mut start: T, end: T, incr: T) -> impl FnMut() -> Option<T>
    where T: AddAssign + PartialOrd + Clone {
        move || {
            if start < end {
                let ret = start.clone();
                start += incr.clone();
                return ret.into();
            }
            None
        }
    }
}
```
The closure's captured state is the mutable `start` plus the immutable
`end` and `incr`; invoking the closure is `RangeFn.call`. -/

structure RangeFn where
  start : Int
  «end» : Int
  incr : Int
deriving DecidableEq, Repr

def RangeFn.call (s : RangeFn) : Option Int × RangeFn :=
  if s.start < s.«end» then (some s.start, { s with start := s.start + s.incr })
  else (none, s)

def range_fn_new (start «end» incr : Int) : RangeFn :=
  { start := start, «end» := «end», incr := incr }

/-- The result of the `k`-th invocation of the closure
`range_fn::new(start, end, incr)`. -/
def rangeFnNth (start «end» incr : Int) (k : Nat) : Option Int :=
  nthOut RangeFn.call (range_fn_new start «end» incr) k

/-- View of the closure's captured state as a `Range` state (`start ↦ cur`). -/
def RangeFn.toRange (s : RangeFn) : Range :=
  { cur := s.start, «end» := s.«end», incr := s.incr }

/-! ## The `Bounds` transformer (object form)

```rust
pub struct Bounds<I, T> { inner: I, min: T, max: T }
impl<I, T> Bounds<I, T> {
    pub fn new(inner: I, min: T, max: T) -> Self { Self { inner, min, max } }
}
impl<I> Iterator for Bounds<I, I::Item> where I: Iterator, I::Item: PartialOrd {
    fn next(&mut self) -> Option<Self::Item> {
        loop {
            match self.inner.next() {
                Some(v) if v >= self.min && v < self.max => return v.into(),
                Some(_) => {}
                None => return None,
            }
        }
    }
}
```
The generic inner iterator is modelled by its remaining output list; one
iteration of the `loop` either returns the inner terminal marker, returns an
in-range item, or discards the item and loops on the rest (`boundsLoop`). -/

def boundsLoop {T : Type} [LinearOrder T] (min max : T) : List T → Option T × List T
  | [] => (none, [])
  | v :: rest =>
    if min ≤ v ∧ v < max then (some v, rest) else boundsLoop min max rest

structure Bounds (T : Type) where
  inner : List T
  min : T
  max : T
deriving DecidableEq, Repr

def Bounds.new {T : Type} (inner : List T) (min max : T) : Bounds T :=
  { inner := inner, min := min, max := max }

def Bounds.next {T : Type} [LinearOrder T] (b : Bounds T) : Option T × Bounds T :=
  ((boundsLoop b.min b.max b.inner).1,
    { b with inner := (boundsLoop b.min b.max b.inner).2 })

/-- `BoundsExt::bounds`: the chaining extension, here attached to the fused
iterator representation. `p.bounds(min, max)` is `Bounds::new(p, min, max)`. -/
def List.bounds {T : Type} (l : List T) (min max : T) : Bounds T :=
  Bounds.new l min max

/-- The full output of a `Bounds` producer driven to exhaustion.  Every call
consumes at least one inner item except the final terminal one, so
`inner.length + 1` calls of fuel always suffice. -/
def boundsOut {T : Type} [LinearOrder T] (b : Bounds T) : List T :=
  collectN Bounds.next (b.inner.length + 1) b

/-! ## The `bounds_fn` closure form

```rust
pub mod bounds_fn {
    pub fn new<T, F>(mut inner: F, min: T, max: T) -> impl FnMut() -> Option<T>
    where T: PartialOrd, F: FnMut() -> Option<T> {
        move || loop {
            match inner() {
                Some(v) if v >= min && v < max => return v.into(),
                Some(_) => {}
                None => return None,
            }
        }
    }
}
```
The captured state is the wrapped inner closure (modelled by its remaining
output list) plus `min` and `max`. -/

def boundsFnLoop {T : Type} [LinearOrder T] (min max : T) : List T → Option T × List T
  | [] => (none, [])
  | v :: rest =>
    if min ≤ v ∧ v < max then (some v, rest) else boundsFnLoop min max rest

structure BoundsFn (T : Type) where
  inner : List T
  min : T
  max : T
deriving DecidableEq, Repr

def bounds_fn_new {T : Type} (inner : List T) (min max : T) : BoundsFn T :=
  { inner := inner, min := min, max := max }

def BoundsFn.call {T : Type} [LinearOrder T] (c : BoundsFn T) : Option T × BoundsFn T :=
  ((boundsFnLoop c.min c.max c.inner).1,
    { c with inner := (boundsFnLoop c.min c.max c.inner).2 })

/-! ## The `Filter` transformer

```rust
pub struct Filter<I, P> { inner: I, predicate: P }
impl<I, P> Iterator for Filter<I, P>
where I: Iterator, P: FnMut(&I::Item) -> bool {
    fn next(&mut self) -> Option<Self::Item> {
        loop {
            match self.inner.next() {
                Some(v) if (self.predicate)(&v) => return v.into(),
                Some(_) => {}
                None => return None,
            }
        }
    }
}
```
Named `FilterIt` because Mathlib already claims the name `Filter`. -/

def filterLoop {T : Type} (p : T → Bool) : List T → Option T × List T
  | [] => (none, [])
  | v :: rest =>
    if p v then (some v, rest) else filterLoop p rest

structure FilterIt (T : Type) where
  inner : List T
  predicate : T → Bool

def FilterIt.new {T : Type} (inner : List T) (predicate : T → Bool) : FilterIt T :=
  { inner := inner, predicate := predicate }

def FilterIt.next {T : Type} (f : FilterIt T) : Option T × FilterIt T :=
  ((filterLoop f.predicate f.inner).1,
    { f with inner := (filterLoop f.predicate f.inner).2 })

/-! ## The representation bridge

```rust
pub fn iter_to_closure<I: Iterator>(inner: I) -> impl FnMut() -> Option<I::Item> {
    struct Iter<I>(I);
    impl<I> FnMut<()> for Iter<I> where I: Iterator {
        extern "rust-call" fn call_mut(&mut self, _args: ()) -> Self::Output {
            Iterator::next(&mut self.0)
        }
    }
    Iter(inner)
}
pub fn closure_to_iter<T, F: FnMut() -> Option<T>>(inner: F) -> impl Iterator<Item = T> {
    struct Iter<F>(F);
    impl<F, T> Iterator for Iter<F> where F: FnMut() -> Option<T> {
        fn next(&mut self) -> Option<Self::Item> { self.0() }
    }
    Iter(inner)
}
```
An object-form producer (`I: Iterator`) is a current state together with a
`next` function on that state; a callable-state unit (`F: FnMut() -> Option<T>`)
is a captured state together with a `call` function.  `iter_to_closure`
captures the whole iterator and delegates invocation to `Iterator::next`;
`closure_to_iter` wraps the whole closure and delegates `next` to invocation. -/

structure IterObj (σ T : Type) where
  st : σ
  next : σ → Option T × σ

/-- One `produce_next()` call on an object-form producer: run `next` on the
held state, keep the successor state. -/
def IterObj.produceNext {σ T : Type} (i : IterObj σ T) : Option T × IterObj σ T :=
  ((i.next i.st).1, { i with st := (i.next i.st).2 })

/-- The `n`-th output of an object-form producer. -/
def IterObj.nth {σ T : Type} (i : IterObj σ T) (n : Nat) : Option T :=
  nthOut i.next i.st n

/-- Partially consume an object-form producer: advance it by `k` `next()` calls. -/
def IterObj.consume {σ T : Type} (i : IterObj σ T) (k : Nat) : IterObj σ T :=
  { i with st := stepN i.next k i.st }

structure ClosureFn (σ T : Type) where
  st : σ
  call : σ → Option T × σ

/-- One invocation of a callable-state unit. -/
def ClosureFn.invoke {σ T : Type} (c : ClosureFn σ T) : Option T × ClosureFn σ T :=
  ((c.call c.st).1, { c with st := (c.call c.st).2 })

def iter_to_closure {σ T : Type} (i : IterObj σ T) : ClosureFn (IterObj σ T) T :=
  { st := i, call := IterObj.produceNext }

def closure_to_iter {σ T : Type} (c : ClosureFn σ T) : IterObj (ClosureFn σ T) T :=
  { st := c, next := ClosureFn.invoke }

/-! ## The cooperative poll protocol

```rust
pub enum Poll<T> { Ready(Option<T>), NotReady }
pub struct Notifier {/* ... */}
pub trait MultiplexedIterator {
    type Item;
    fn next(&mut self, n: Notifier) -> Poll<Self::Item>;
}
```
Only the data model exists in the source: the trait has no implementation. -/

inductive Poll (T : Type) where
  | Ready : Option T → Poll T
  | NotReady : Poll T
deriving DecidableEq, Repr

structure Notifier where
deriving DecidableEq, Repr

/-- Ceiling division on `Int`: for `0 < b`, `(a + b - 1) / b = ⌈a / b⌉`
(`/` is Euclidean division, which floors for a positive divisor). -/
def ceilDiv (a b : Int) : Int :=
  (a + b - 1) / b

/-! ## Generic producer lemmas -/

theorem stepN_succ {σ T : Type} (next : σ → Option T × σ) (k : Nat) (s : σ) :
    stepN next (k + 1) s = stepN next k (next s).2 := rfl

theorem nthOut_succ {σ T : Type} (next : σ → Option T × σ) (k : Nat) (s : σ) :
    nthOut next s (k + 1) = nthOut next (next s).2 k := rfl

theorem stepN_back {σ T : Type} (next : σ → Option T × σ) :
    ∀ (k : Nat) (s : σ), stepN next (k + 1) s = (next (stepN next k s)).2 := by
  intro k
  induction k with
  | zero => intro s; rfl
  | succ k ih =>
    intro s
    rw [stepN_succ next (k + 1) s, ih, stepN_succ]

theorem stepN_fixed {σ T : Type} (next : σ → Option T × σ) (s : σ)
    (hs : next s = (none, s)) : ∀ k, stepN next k s = s := by
  intro k
  induction k with
  | zero => rfl
  | succ k ih => rw [stepN_back, ih, hs]

/-- A state on which `next` self-loops with the terminal marker produces the
terminal marker on every call. -/
theorem nthOut_sink {σ T : Type} (next : σ → Option T × σ) (s : σ)
    (hs : next s = (none, s)) : ∀ k, nthOut next s k = none := by
  intro k
  rw [nthOut, stepN_fixed next s hs, hs]

/-- For a step function whose terminal successor states self-loop, a terminal
result is permanent: every later call is also terminal. -/
theorem nthOut_none_mono {σ T : Type} (next : σ → Option T × σ)
    (H : ∀ s, (next s).1 = none → next ((next s).2) = (none, (next s).2))
    (s : σ) (k m : Nat) (hk : nthOut next s k = none) (hkm : k ≤ m) :
    nthOut next s m = none := by
  induction m, hkm using Nat.le_induction with
  | base => exact hk
  | succ m _ ih =>
    have h1 : next ((next (stepN next m s)).2) = (none, (next (stepN next m s)).2) :=
      H (stepN next m s) ih
    rw [nthOut, stepN_back, h1]

/-- Outputs are preserved along a simulation of step functions. -/
theorem nthOut_bisim {σ1 σ2 T : Type} (n1 : σ1 → Option T × σ1)
    (n2 : σ2 → Option T × σ2) (f : σ1 → σ2)
    (hf : ∀ s, n2 (f s) = ((n1 s).1, f (n1 s).2)) :
    ∀ (k : Nat) (s : σ1), nthOut n2 (f s) k = nthOut n1 s k := by
  intro k
  induction k with
  | zero =>
    intro s
    rw [nthOut, nthOut, stepN, stepN, hf]
  | succ k ih =>
    intro s
    rw [nthOut_succ, nthOut_succ, hf]
    exact ih (n1 s).2

/-- Collected outputs are preserved along a simulation of step functions. -/
theorem collectN_bisim {σ1 σ2 T : Type} (n1 : σ1 → Option T × σ1)
    (n2 : σ2 → Option T × σ2) (f : σ1 → σ2)
    (hf : ∀ s, n2 (f s) = ((n1 s).1, f (n1 s).2)) :
    ∀ (n : Nat) (s : σ1), collectN n2 n (f s) = collectN n1 n s := by
  intro n
  induction n with
  | zero => intro s; rfl
  | succ n ih =>
    intro s
    rcases hn : n1 s with ⟨o, s2⟩
    rw [collectN, collectN, hf, hn]
    cases o with
    | none => rfl
    | some v =>
      show v :: collectN n2 n (f s2) = v :: collectN n1 n s2
      rw [ih]

/-! ## `Range` lemmas -/

theorem Range.next_terminal (r : Range) (h : ¬ r.cur < r.«end») :
    Range.next r = (none, r) := by
  rw [Range.next, if_neg h]

theorem Range.next_end (r : Range) : ((Range.next r).2).«end» = r.«end» := by
  rw [Range.next]
  split <;> rfl

theorem Range.next_incr (r : Range) : ((Range.next r).2).incr = r.incr := by
  rw [Range.next]
  split <;> rfl

theorem Range.next_none (r : Range) (h : (Range.next r).1 = none) :
    Range.next r = (none, r) := by
  by_cases hc : r.cur < r.«end»
  · rw [Range.next, if_pos hc] at h
    exact absurd h (by simp)
  · exact Range.next_terminal r hc

/-- The `end` and `incr` fields survive any number of calls. -/
theorem Range.stepN_frame (r : Range) :
    ∀ k, (stepN Range.next k r).«end» = r.«end» ∧ (stepN Range.next k r).incr = r.incr := by
  intro k
  induction k with
  | zero => exact ⟨rfl, rfl⟩
  | succ k ih =>
    rw [stepN_back]
    exact ⟨(Range.next_end _).trans ih.1, (Range.next_incr _).trans ih.2⟩

/-- If the state reached after `k` calls is still below `end`, it advanced on
every one of those calls, so `cur` is exactly `start + k * incr`. -/
theorem Range.stepN_of_lt (r : Range) :
    ∀ k, (stepN Range.next k r).cur < r.«end» →
      stepN Range.next k r = { r with cur := r.cur + k * r.incr } := by
  intro k
  induction k with
  | zero =>
    intro _
    show r = _
    simp
  | succ k ih =>
    intro h
    rw [stepN_back] at h ⊢
    by_cases hk : (stepN Range.next k r).cur < r.«end»
    · have hlt : (stepN Range.next k r).cur < (stepN Range.next k r).«end» := by
        rw [(Range.stepN_frame r k).1]; exact hk
      have hnext : Range.next (stepN Range.next k r) =
          (some (stepN Range.next k r).cur,
            { stepN Range.next k r with
                cur := (stepN Range.next k r).cur + (stepN Range.next k r).incr }) := by
        rw [Range.next, if_pos hlt]
      rw [hnext, ih hk]
      have : r.cur + ↑k * r.incr + r.incr = r.cur + (↑k + 1) * r.incr := by ring
      simp [this]
    · have hterm : Range.next (stepN Range.next k r) = (none, stepN Range.next k r) := by
        apply Range.next_terminal
        rw [(Range.stepN_frame r k).1]
        exact hk
      rw [hterm] at h
      exact absurd h hk

/-- With a positive increment, as long as `start + k * incr` is still below
`end` the producer has advanced exactly `k` times. -/
theorem Range.stepN_of_small (r : Range) (hincr : 0 < r.incr) :
    ∀ k : Nat, r.cur + k * r.incr < r.«end» →
      stepN Range.next k r = { r with cur := r.cur + k * r.incr } := by
  intro k
  induction k with
  | zero =>
    intro _
    show r = _
    simp
  | succ k ih =>
    intro h
    have hk : r.cur + ↑k * r.incr < r.«end» := by
      have : r.cur + ↑k * r.incr < r.cur + (↑k + 1) * r.incr := by nlinarith
      calc r.cur + ↑k * r.incr < r.cur + (↑k + 1) * r.incr := this
        _ < r.«end» := by push_cast at h ⊢; linarith
    rw [stepN_back, ih hk]
    have hlt : r.cur + ↑k * r.incr < r.«end» := hk
    rw [Range.next, if_pos (by simpa using hlt)]
    have : r.cur + ↑k * r.incr + r.incr = r.cur + (↑k + 1) * r.incr := by ring
    simp [this]

/-- Full characterisation of the output of `Range` for a positive increment:
the `k`-th call yields `start + k * incr` while that is below `end`, and the
terminal marker from then on. -/
theorem Range.nthOut_char (r : Range) (hincr : 0 < r.incr) (k : Nat) :
    nthOut Range.next r k =
      if r.cur + k * r.incr < r.«end» then some (r.cur + k * r.incr) else none := by
  by_cases h : r.cur + ↑k * r.incr < r.«end»
  · rw [if_pos h, nthOut, Range.stepN_of_small r hincr k h]
    rw [Range.next]
    simp only
    rw [if_pos (by simpa using h)]
  · rw [if_neg h, nthOut]
    by_cases hcur : (stepN Range.next k r).cur < r.«end»
    · have := Range.stepN_of_lt r k hcur
      rw [this] at hcur
      exact absurd hcur h
    · have hterm : Range.next (stepN Range.next k r) = (none, stepN Range.next k r) := by
        apply Range.next_terminal
        rw [(Range.stepN_frame r k).1]
        exact hcur
      rw [hterm]

/-- `rangeNth` in closed form. -/
theorem rangeNth_char (start «end» step : Int) (hstep : 0 < step) (k : Nat) :
    rangeNth start «end» step k =
      if start + k * step < «end» then some (start + k * step) else none :=
  Range.nthOut_char (Range.new start «end» step) hstep k

/-! ## Ceiling-division arithmetic -/

theorem lt_ceilDiv_iff (a b : Int) (hb : 0 < b) (k : Nat) :
    (k : Int) * b < a ↔ (k : Int) < ceilDiv a b := by
  rw [ceilDiv]
  constructor
  · intro h
    have h1 : ((k : Int) + 1) * b ≤ a + b - 1 := by nlinarith
    have h2 : (k : Int) + 1 ≤ (a + b - 1) / b := (Int.le_ediv_iff_mul_le hb).mpr h1
    omega
  · intro h
    have h1 : (k : Int) + 1 ≤ (a + b - 1) / b := by omega
    have h2 : ((k : Int) + 1) * b ≤ a + b - 1 := (Int.le_ediv_iff_mul_le hb).mp h1
    nlinarith

theorem lt_toNat_ceilDiv_iff (a b : Int) (hb : 0 < b) (k : Nat) :
    k < (ceilDiv a b).toNat ↔ (k : Int) * b < a := by
  rw [Int.lt_toNat, ← lt_ceilDiv_iff a b hb k]

/-! ## `filterLoop` lemmas -/

/-- The loop returns the first accepted item of the remaining inner output. -/
theorem filterLoop_fst {T : Type} (p : T → Bool) :
    ∀ l : List T, (filterLoop p l).1 = (l.filter p).head? := by
  intro l
  induction l with
  | nil => rfl
  | cons v rest ih =>
    by_cases hp : p v
    · rw [filterLoop, if_pos hp, List.filter_cons, if_pos hp]
      rfl
    · rw [filterLoop, if_neg hp, List.filter_cons, if_neg hp]
      exact ih

/-- When no remaining inner item is accepted, the loop consumes the inner
producer completely. -/
theorem filterLoop_snd_of_none {T : Type} (p : T → Bool) :
    ∀ l : List T, l.filter p = [] → (filterLoop p l).2 = [] := by
  intro l
  induction l with
  | nil => intro _; rfl
  | cons v rest ih =>
    intro h
    rw [List.filter_cons] at h
    by_cases hp : p v
    · rw [if_pos hp] at h
      exact absurd h (by simp)
    · rw [if_neg hp] at h
      rw [filterLoop, if_neg hp]
      exact ih h

/-- The accepted items remaining after one loop call are the tail of the
accepted items before it: nothing is skipped, nothing is repeated. -/
theorem filterLoop_snd_filter {T : Type} (p : T → Bool) :
    ∀ l : List T, ((filterLoop p l).2).filter p = (l.filter p).tail := by
  intro l
  induction l with
  | nil => rfl
  | cons v rest ih =>
    by_cases hp : p v
    · rw [filterLoop, if_pos hp, List.filter_cons, if_pos hp]
      rfl
    · rw [filterLoop, if_neg hp, List.filter_cons, if_neg hp]
      exact ih

/-- Each loop call consumes inner items: the remainder is strictly shorter
unless the inner producer was consumed completely. -/
theorem filterLoop_snd_length {T : Type} (p : T → Bool) :
    ∀ l : List T, (filterLoop p l).2.length < l.length ∨ (filterLoop p l).2 = [] := by
  intro l
  induction l with
  | nil => exact Or.inr rfl
  | cons v rest ih =>
    by_cases hp : p v
    · rw [filterLoop, if_pos hp]
      exact Or.inl (by simp)
    · rw [filterLoop, if_neg hp]
      rcases ih with h | h
      · exact Or.inl (Nat.lt_trans h (by simp))
      · exact Or.inr h


/-- A terminal result means the inner producer was consumed completely. -/
theorem filterLoop_none_snd {T : Type} (p : T → Bool) (l : List T)
    (h : (filterLoop p l).1 = none) : (filterLoop p l).2 = [] := by
  apply filterLoop_snd_of_none
  rw [filterLoop_fst] at h
  exact List.head?_eq_none_iff.mp h

/-- The `k`-th output of the filter loop as a producer is the `k`-th accepted
item of the inner output, in the inner order. -/
theorem filterLoop_nthOut {T : Type} (p : T → Bool) :
    ∀ (k : Nat) (l : List T), nthOut (filterLoop p) l k = (l.filter p)[k]? := by
  intro k
  induction k with
  | zero =>
    intro l
    rw [nthOut]
    show (filterLoop p l).1 = _
    rw [filterLoop_fst, List.head?_eq_getElem?]
  | succ k ih =>
    intro l
    rw [nthOut_succ, ih, filterLoop_snd_filter]
    rcases hf : l.filter p with _ | ⟨w, t⟩ <;> simp

/-- A filter loop that has answered terminally self-loops terminally. -/
theorem filterLoop_terminal_perm {T : Type} (p : T → Bool) (l : List T)
    (h : (filterLoop p l).1 = none) :
    filterLoop p ((filterLoop p l).2) = (none, (filterLoop p l).2) := by
  rw [filterLoop_none_snd p l h]
  rfl

/-- Driving the filter loop to exhaustion collects exactly the accepted
items; `l.length` item-producing calls are the most possible, so any fuel
beyond that is enough. -/
theorem collectN_filterLoop {T : Type} (p : T → Bool) :
    ∀ (n : Nat) (l : List T), l.length < n →
      collectN (filterLoop p) n l = l.filter p := by
  intro n
  induction n with
  | zero =>
    intro l h
    exact absurd h (by omega)
  | succ n ih =>
    intro l hl
    rw [collectN]
    rcases h : filterLoop p l with ⟨o, rest⟩
    rcases hf : l.filter p with _ | ⟨w, t⟩
    · have h1 : o = none := by
        have := filterLoop_fst p l
        rw [h, hf] at this
        exact this
      rw [h1]
    · have h1 : o = some w := by
        have := filterLoop_fst p l
        rw [h, hf] at this
        exact this
      have h2 : rest.filter p = t := by
        have := filterLoop_snd_filter p l
        rw [h, hf] at this
        exact this
      have hrest : rest.length < n := by
        have hne : l ≠ [] := by
          intro hnil
          rw [hnil] at hf
          exact absurd hf (by simp)
        have hlen : 0 < l.length := List.length_pos.mpr hne
        have hsl : rest.length < l.length ∨ rest = [] := by
          have := filterLoop_snd_length p l
          rw [h] at this
          exact this
        rcases hsl with hlt | hnil2
        · omega
        · rw [hnil2]
          simp only [List.length_nil]
          omega
      rw [h1]
      show w :: collectN (filterLoop p) n rest = w :: t
      rw [ih rest hrest, h2]

/-! ## `boundsLoop`, `boundsFnLoop` and the filter predicate -/

/-- The bound check `min <= v && v < max` as a predicate. -/
theorem boundsLoop_eq_filterLoop {T : Type} [LinearOrder T] (mn mx : T) :
    ∀ l : List T, boundsLoop mn mx l = filterLoop (fun v => decide (mn ≤ v) && decide (v < mx)) l := by
  intro l
  induction l with
  | nil => rfl
  | cons v rest ih =>
    rw [boundsLoop, filterLoop]
    by_cases hv : mn ≤ v ∧ v < mx
    · rw [if_pos hv, if_pos (by simp [hv.1, hv.2])]
    · rw [if_neg hv, if_neg (by simpa using hv), ih]

theorem boundsFnLoop_eq_boundsLoop {T : Type} [LinearOrder T] (mn mx : T) :
    ∀ l : List T, boundsFnLoop mn mx l = boundsLoop mn mx l := by
  intro l
  induction l with
  | nil => rfl
  | cons v rest ih =>
    rw [boundsFnLoop, boundsLoop, ih]

/-! ## Structure-level correspondences -/

/-- One invocation of the `range_fn` closure performs exactly one `Range::next`
step on the corresponding object state. -/
theorem RangeFn.call_toRange (s : RangeFn) :
    Range.next s.toRange = ((RangeFn.call s).1, (RangeFn.call s).2.toRange) := by
  by_cases h : s.start < s.«end»
  · have hc : RangeFn.call s = (some s.start, { s with start := s.start + s.incr }) := by
      rw [RangeFn.call, if_pos h]
    rw [hc, Range.next, if_pos (show s.toRange.cur < s.toRange.«end» from h)]
    rfl
  · have hc : RangeFn.call s = (none, s) := by
      rw [RangeFn.call, if_neg h]
    rw [hc, Range.next, if_neg (show ¬ s.toRange.cur < s.toRange.«end» from h)]

/-- The closure form and the object form of the range generator produce the
same result at every call index. -/
theorem rangeFn_eq_range (start «end» step : Int) (k : Nat) :
    rangeFnNth start «end» step k = rangeNth start «end» step k := by
  rw [rangeFnNth, rangeNth]
  have h := nthOut_bisim RangeFn.call Range.next RangeFn.toRange
    (fun s => RangeFn.call_toRange s) k (range_fn_new start «end» step)
  exact h.symm

/-- `Bounds::next` on the wrapper structure is the loop on the inner list. -/
theorem Bounds.nthOut_boundsLoop {T : Type} [LinearOrder T] (mn mx : T) (l : List T) (k : Nat) :
    nthOut Bounds.next (Bounds.new l mn mx) k = nthOut (boundsLoop mn mx) l k :=
  nthOut_bisim (boundsLoop mn mx) Bounds.next (fun l => Bounds.new l mn mx)
    (fun _ => rfl) k l

/-- The `k`-th item yielded by `Bounds::new(l, min, max)` is the `k`-th item
of `l` satisfying `min <= v < max`. -/
theorem Bounds.nthOut_filter {T : Type} [LinearOrder T] (mn mx : T) (l : List T) (k : Nat) :
    nthOut Bounds.next (Bounds.new l mn mx) k
      = (l.filter (fun v => decide (mn ≤ v) && decide (v < mx)))[k]? := by
  rw [Bounds.nthOut_boundsLoop]
  have hfun : boundsLoop mn mx = filterLoop (fun v => decide (mn ≤ v) && decide (v < mx)) :=
    funext (boundsLoop_eq_filterLoop mn mx)
  rw [hfun, filterLoop_nthOut]

theorem FilterIt.nthOut_filterLoop {T : Type} (p : T → Bool) (l : List T) (k : Nat) :
    nthOut FilterIt.next (FilterIt.new l p) k = nthOut (filterLoop p) l k :=
  nthOut_bisim (filterLoop p) FilterIt.next (fun l => FilterIt.new l p)
    (fun _ => rfl) k l

theorem BoundsFn.nthOut_boundsFnLoop {T : Type} [LinearOrder T] (mn mx : T) (l : List T) (k : Nat) :
    nthOut BoundsFn.call (bounds_fn_new l mn mx) k = nthOut (boundsFnLoop mn mx) l k :=
  nthOut_bisim (boundsFnLoop mn mx) BoundsFn.call (fun l => bounds_fn_new l mn mx)
    (fun _ => rfl) k l

/-- Driving `Bounds::new(l, min, max)` to exhaustion yields exactly the
qualifying items of `l`, in order. -/
theorem boundsOut_eq_filter {T : Type} [LinearOrder T] (l : List T) (mn mx : T) :
    boundsOut (Bounds.new l mn mx)
      = l.filter (fun v => decide (mn ≤ v) && decide (v < mx)) := by
  show collectN Bounds.next (l.length + 1) (Bounds.new l mn mx) = _
  rw [collectN_bisim (boundsLoop mn mx) Bounds.next (fun l => Bounds.new l mn mx)
    (fun _ => rfl) (l.length + 1) l]
  have hfun : boundsLoop mn mx = filterLoop (fun v => decide (mn ≤ v) && decide (v < mx)) :=
    funext (boundsLoop_eq_filterLoop mn mx)
  rw [hfun, collectN_filterLoop _ (l.length + 1) l (by omega)]

/-- A `Filter` that has answered terminally self-loops terminally. -/
theorem FilterIt.terminal_perm {T : Type} (f : FilterIt T)
    (h : (FilterIt.next f).1 = none) :
    FilterIt.next ((FilterIt.next f).2) = (none, (FilterIt.next f).2) := by
  have h2 : (filterLoop f.predicate f.inner).2 = [] :=
    filterLoop_none_snd _ _ h
  have h3 : (FilterIt.next f).2 = { inner := ([] : List T), predicate := f.predicate } := by
    show { f with inner := (filterLoop f.predicate f.inner).2 } = _
    rw [h2]
  rw [h3]
  rfl

theorem List.bounds_eq {T : Type} (l : List T) (mn mx : T) :
    l.bounds mn mx = Bounds.new l mn mx := rfl

/-- With a nonpositive increment and `cur < end`, the producer advances on
every call: `cur` only moves (weakly) away from `end`, so the guard never
fails. -/
theorem Range.stepN_of_nonpos (r : Range) (hincr : r.incr ≤ 0) (hlt : r.cur < r.«end») :
    ∀ k : Nat, stepN Range.next k r = { r with cur := r.cur + k * r.incr } := by
  intro k
  induction k with
  | zero =>
    show r = _
    simp
  | succ k ih =>
    rw [stepN_back, ih]
    have hnp : (k : Int) * r.incr ≤ 0 :=
      mul_nonpos_of_nonneg_of_nonpos (by positivity) hincr
    have hc : r.cur + (k : Int) * r.incr < r.«end» := by linarith
    rw [Range.next, if_pos (show (({ r with cur := r.cur + (k : Int) * r.incr } : Range)).cur
      < (({ r with cur := r.cur + (k : Int) * r.incr } : Range)).«end» from hc)]
    have : r.cur + ↑k * r.incr + r.incr = r.cur + (↑k + 1) * r.incr := by ring
    simp [this]

/-! ## Bridge lemmas -/

/-- Stepping the object wrapper of a raw state/step pair is stepping the raw
pair. -/
theorem IterObj.produceNext_nthOut {σ T : Type} (nx : σ → Option T × σ) (s : σ) (n : Nat) :
    nthOut IterObj.produceNext (IterObj.mk s nx) n = nthOut nx s n :=
  nthOut_bisim nx IterObj.produceNext (fun s => IterObj.mk s nx) (fun _ => rfl) n s

/-- Invoking the closure produced by `iter_to_closure` is stepping the
wrapped object producer. -/
theorem iter_to_closure_nthOut {σ T : Type} (i : IterObj σ T) (n : Nat) :
    nthOut ClosureFn.invoke (iter_to_closure i) n = nthOut IterObj.produceNext i n :=
  nthOut_bisim IterObj.produceNext ClosureFn.invoke iter_to_closure (fun _ => rfl) n i

/-- The object → closure → object round trip is output-identical to the
original object producer. -/
theorem bridge_roundtrip {σ T : Type} (j : IterObj σ T) (n : Nat) :
    (closure_to_iter (iter_to_closure j)).nth n = j.nth n := by
  show nthOut ClosureFn.invoke (iter_to_closure j) n = j.nth n
  rw [iter_to_closure_nthOut]
  show nthOut IterObj.produceNext (IterObj.mk j.st j.next) n = nthOut j.next j.st n
  rw [IterObj.produceNext_nthOut]

theorem Range.next_lt (r : Range) (h : r.cur < r.«end») :
    Range.next r = (some r.cur, { r with cur := r.cur + r.incr }) := by
  rw [Range.next, if_pos h]

/-! ## Claim theorems -/

/-- Claim C1: for every `start < end` and positive `step`, the producer
`Range::new(start, end, step)` yields exactly `⌈(end - start) / step⌉` items
via successive `next()` calls (the `k`-th call yields `start + k * step`
exactly for `k` below that count), the yielded items are strictly
increasing, every yielded item — in particular the last — is strictly less
than `end`, and after the first terminal result every subsequent `next()`
call also returns the terminal marker. -/
theorem range_yields_ceil (start «end» step : Int) (h1 : start < «end») (h2 : 0 < step) :
    (∀ k : Nat, (rangeNth start «end» step k).isSome ↔
      k < (ceilDiv («end» - start) step).toNat) ∧
    (∀ k : Nat, k < (ceilDiv («end» - start) step).toNat →
      rangeNth start «end» step k = some (start + k * step)) ∧
    (∀ (j k : Nat) (vj vk : Int), j < k →
      rangeNth start «end» step j = some vj →
      rangeNth start «end» step k = some vk → vj < vk) ∧
    (∀ (k : Nat) (v : Int), rangeNth start «end» step k = some v → v < «end») ∧
    (∀ k m : Nat, k ≤ m → rangeNth start «end» step k = none →
      rangeNth start «end» step m = none) := by
  have hchar : ∀ k : Nat, rangeNth start «end» step k =
      if start + k * step < «end» then some (start + k * step) else none :=
    fun k => rangeNth_char start «end» step h2 k
  have hiff : ∀ k : Nat, (start + k * step < «end») ↔
      k < (ceilDiv («end» - start) step).toNat := by
    intro k
    rw [lt_toNat_ceilDiv_iff _ _ h2]
    constructor <;> intro h <;> linarith
  have hsome : ∀ (k : Nat) (v : Int), rangeNth start «end» step k = some v →
      v = start + k * step ∧ start + k * step < «end» := by
    intro k v hv
    rw [hchar k] at hv
    by_cases h : start + ↑k * step < «end»
    · rw [if_pos h] at hv
      exact ⟨(Option.some.inj hv).symm, h⟩
    · rw [if_neg h] at hv
      exact absurd hv (by simp)
  refine ⟨?_, ?_, ?_, ?_, ?_⟩
  · intro k
    rw [hchar k, ← hiff k]
    by_cases h : start + ↑k * step < «end» <;> simp [h]
  · intro k hk
    rw [hchar k, if_pos ((hiff k).mpr hk)]
  · intro j k vj vk hjk hj hk
    obtain ⟨ej, _⟩ := hsome j vj hj
    obtain ⟨ek, _⟩ := hsome k vk hk
    rw [ej, ek]
    have hjk' : (j : Int) < (k : Int) := by exact_mod_cast hjk
    nlinarith
  · intro k v hv
    obtain ⟨ev, hlt⟩ := hsome k v hv
    rw [ev]
    exact hlt
  · intro k m hkm hk
    rw [hchar k] at hk
    rw [hchar m]
    by_cases h : start + ↑k * step < «end»
    · rw [if_pos h] at hk
      exact absurd hk (by simp)
    · have hkm' : (k : Int) ≤ (m : Int) := by exact_mod_cast hkm
      have : start + (k : Int) * step ≤ start + (m : Int) * step := by nlinarith
      rw [if_neg (by linarith)]

theorem range_yields_ceil_witness : rangeNth 1 4 1 1 = some 2 := by
  have h := (range_yields_ceil 1 4 1 (by decide) (by decide)).2.1 1 (by decide)
  simpa using h

/-- Claim C10: every call to `Range::next` leaves the `end` and `incr`
fields unchanged (only `cur` is ever mutated), a terminal call leaves the
whole state — `cur` included — unchanged, and therefore the entire state of
an exhausted `Range` is invariant under any further `next()` calls. -/
theorem range_frame (r : Range) :
    ((Range.next r).2).«end» = r.«end» ∧
    ((Range.next r).2).incr = r.incr ∧
    ((Range.next r).1 = none → (Range.next r).2 = r) ∧
    ((Range.next r).1 = none → ∀ k, stepN Range.next k r = r) := by
  refine ⟨Range.next_end r, Range.next_incr r, ?_, ?_⟩
  · intro h
    rw [Range.next_none r h]
  · intro h
    exact stepN_fixed Range.next r (Range.next_none r h)

theorem range_frame_witness : (Range.next (Range.new 5 3 1)).2 = Range.new 5 3 1 :=
  (range_frame (Range.new 5 3 1)).2.2.1 (by decide)

/-- Claim C7: violating the step precondition never raises an error and
yields exactly one of two data-level outcomes.  If `start` is not strictly
below `end`, both `Range::new(start, end, step)` and the `range_fn` closure
return the terminal marker on the very first call and on every call
thereafter.  If `start < end` but the step is nonpositive (it moves `cur`
away from `end` or leaves it fixed), every call returns a produced value
and the terminal marker is never returned. -/
theorem range_misuse (start «end» step : Int) :
    (¬ start < «end» →
      (∀ k : Nat, rangeNth start «end» step k = none) ∧
      (∀ k : Nat, rangeFnNth start «end» step k = none)) ∧
    (start < «end» → step ≤ 0 →
      (∀ k : Nat, rangeNth start «end» step k = some (start + k * step)) ∧
      (∀ k : Nat, rangeFnNth start «end» step k = some (start + k * step))) := by
  constructor
  · intro h
    have hr : Range.next (Range.new start «end» step) = (none, Range.new start «end» step) :=
      Range.next_terminal _ h
    have hf : RangeFn.call (range_fn_new start «end» step)
        = (none, range_fn_new start «end» step) := by
      rw [RangeFn.call]
      exact if_neg h
    exact ⟨nthOut_sink _ _ hr, nthOut_sink _ _ hf⟩
  · intro hlt hstep
    have hmain : ∀ k : Nat, rangeNth start «end» step k = some (start + k * step) := by
      intro k
      rw [rangeNth, nthOut,
        Range.stepN_of_nonpos (Range.new start «end» step) hstep hlt k]
      have hnp : (k : Int) * step ≤ 0 :=
        mul_nonpos_of_nonneg_of_nonpos (by positivity) hstep
      have hc : start + (k : Int) * step < «end» := by linarith
      rw [Range.next_lt _ hc]
      rfl
    refine ⟨hmain, fun k => ?_⟩
    rw [rangeFn_eq_range]
    exact hmain k

theorem range_misuse_witness :
    rangeNth 5 3 1 0 = none ∧ rangeFnNth 1 5 0 4 = some 1 := by
  constructor
  · exact ((range_misuse 5 3 1).1 (by decide)).1 0
  · have h := ((range_misuse 1 5 0).2 (by decide) (by decide)).2 4
    simpa using h

/-- Claim C2: for every inner producer (given by its output) and bounds
`min`, `max`, the sequence yielded by `Bounds::new(P, min, max)` is exactly
the subsequence of P's output made of the items `v` with `min <= v < max`,
in P's original relative order; the bounded producer is terminal exactly
when no qualifying item remains, and a terminal answer means the inner
producer was pulled to exhaustion — rejected items are silently skipped and
never cause early termination. -/
theorem bounds_subsequence {T : Type} [LinearOrder T] (l : List T) (mn mx : T) :
    (∀ k : Nat, nthOut Bounds.next (Bounds.new l mn mx) k
      = (l.filter (fun v => decide (mn ≤ v) && decide (v < mx)))[k]?) ∧
    ((Bounds.next (Bounds.new l mn mx)).1 = none ↔
      l.filter (fun v => decide (mn ≤ v) && decide (v < mx)) = []) ∧
    ((Bounds.next (Bounds.new l mn mx)).1 = none →
      ((Bounds.next (Bounds.new l mn mx)).2).inner = []) := by
  refine ⟨fun k => Bounds.nthOut_filter mn mx l k, ?_, ?_⟩
  · show (boundsLoop mn mx l).1 = none ↔ _
    rw [boundsLoop_eq_filterLoop, filterLoop_fst]
    exact List.head?_eq_none_iff
  · intro h
    show (boundsLoop mn mx l).2 = []
    have h2 : (filterLoop (fun v => decide (mn ≤ v) && decide (v < mx)) l).1 = none := by
      rw [← boundsLoop_eq_filterLoop]
      exact h
    rw [boundsLoop_eq_filterLoop]
    exact filterLoop_none_snd _ _ h2

theorem bounds_subsequence_witness :
    ((Bounds.next (Bounds.new ([1, 9] : List Int) 3 8)).2).inner = [] ∧
    nthOut Bounds.next (Bounds.new ([1, 7, 3, 9] : List Int) 3 8) 0 = some 7 := by
  constructor
  · exact (bounds_subsequence [1, 9] 3 8).2.2 (by decide)
  · exact ((bounds_subsequence [1, 7, 3, 9] 3 8).1 0).trans (by decide)

/-- Claim C9: whenever no item of the (finite) inner producer qualifies —
in particular whenever `min > max` — the very first `next()` call on
`Bounds::new(P, min, max)` pulls from P until P is exhausted and returns
the terminal marker, and every call yields the terminal marker: the
bounded producer yields no item at all yet still terminates. -/
theorem bounds_vacuous {T : Type} [LinearOrder T] (l : List T) (mn mx : T)
    (h : ∀ v ∈ l, ¬ (mn ≤ v ∧ v < mx)) :
    Bounds.next (Bounds.new l mn mx) = (none, Bounds.new ([] : List T) mn mx) ∧
    (∀ k : Nat, nthOut Bounds.next (Bounds.new l mn mx) k = none) := by
  have hfil : l.filter (fun v => decide (mn ≤ v) && decide (v < mx)) = [] := by
    rw [List.filter_eq_nil_iff]
    intro a ha
    simpa using h a ha
  constructor
  · have h1 : (boundsLoop mn mx l).1 = none := by
      rw [boundsLoop_eq_filterLoop, filterLoop_fst, hfil]
      rfl
    have h2 : (boundsLoop mn mx l).2 = [] := by
      rw [boundsLoop_eq_filterLoop]
      exact filterLoop_snd_of_none _ _ hfil
    show ((boundsLoop mn mx l).1, Bounds.new (boundsLoop mn mx l).2 mn mx) = _
    rw [h1, h2]
  · intro k
    rw [Bounds.nthOut_filter, hfil]
    rfl

theorem bounds_vacuous_witness :
    Bounds.next (Bounds.new ([3, 7, 2] : List Int) 10 5)
      = (none, Bounds.new ([] : List Int) 10 5) :=
  (bounds_vacuous [3, 7, 2] 10 5 (by decide)).1

/-- Claim C4: the closure returned by `range_fn::new(start, end, step)`
produces, over successive invocations, exactly the same sequence of
optional values as successive `next()` calls on `Range::new(start, end,
step)` — same items, same order, terminal marker at the same position and
forever after; likewise, `bounds_fn::new` over a closure is observably
equal to `Bounds` over the corresponding iterator. -/
theorem dual_representation :
    (∀ (start «end» step : Int) (k : Nat),
      rangeFnNth start «end» step k = rangeNth start «end» step k) ∧
    (∀ (T : Type) [inst : LinearOrder T] (l : List T) (mn mx : T) (k : Nat),
      nthOut BoundsFn.call (bounds_fn_new l mn mx) k
        = nthOut Bounds.next (Bounds.new l mn mx) k) := by
  constructor
  · exact rangeFn_eq_range
  · intro T inst l mn mx k
    rw [BoundsFn.nthOut_boundsFnLoop, Bounds.nthOut_boundsLoop]
    have hfun : boundsFnLoop mn mx = boundsLoop mn mx :=
      funext (boundsFnLoop_eq_boundsLoop mn mx)
    rw [hfun]

/-- Claim C3: for every object-form producer, at every point of partial
consumption, `closure_to_iter(iter_to_closure(P))` produces exactly the
remaining output sequence of P — element for element, nothing skipped,
nothing repeated, exhaustion at the same position; in particular for an
unconsumed P the round trip reproduces P's entire sequence. -/
theorem bridge_identity (σ T : Type) (i : IterObj σ T) (k n : Nat) :
    (closure_to_iter (iter_to_closure (i.consume k))).nth n = (i.consume k).nth n ∧
    (closure_to_iter (iter_to_closure i)).nth n = i.nth n :=
  ⟨bridge_roundtrip (i.consume k) n, bridge_roundtrip i n⟩

/-- Claim C5: for every inner producer, bounds `min`, `max`, and predicate
`p` with `p v` true exactly when `min <= v < max`, `Filter::new(P, p)`
yields the exact same sequence as `Bounds::new(P, min, max)`, exhausting at
the same position.  Concretely, `Filter` over `Range::new(1, 20, 1)` with
predicate `v >= 5 && v < 8` yields `5, 6, 7` and is then permanently
exhausted, equal to `Bounds(Range::new(1, 20, 1), 5, 8)`. -/
theorem filter_equals_bounds :
    (∀ (T : Type) [inst : LinearOrder T] (p : T → Bool) (mn mx : T),
      (∀ v : T, p v = (decide (mn ≤ v) && decide (v < mx))) →
      ∀ (l : List T) (k : Nat),
        nthOut FilterIt.next (FilterIt.new l p) k
          = nthOut Bounds.next (Bounds.new l mn mx) k) ∧
    (∀ k : Nat,
      nthOut FilterIt.next
        (FilterIt.new (rangeOut 1 20 1) (fun v => decide (5 ≤ v) && decide (v < 8))) k
        = nthOut Bounds.next (Bounds.new (rangeOut 1 20 1) 5 8) k) ∧
    (nthOut FilterIt.next
      (FilterIt.new (rangeOut 1 20 1) (fun v => decide (5 ≤ v) && decide (v < 8))) 0
      = some 5) ∧
    (nthOut FilterIt.next
      (FilterIt.new (rangeOut 1 20 1) (fun v => decide (5 ≤ v) && decide (v < 8))) 1
      = some 6) ∧
    (nthOut FilterIt.next
      (FilterIt.new (rangeOut 1 20 1) (fun v => decide (5 ≤ v) && decide (v < 8))) 2
      = some 7) ∧
    (∀ k : Nat, 3 ≤ k →
      nthOut FilterIt.next
        (FilterIt.new (rangeOut 1 20 1) (fun v => decide (5 ≤ v) && decide (v < 8))) k
        = none) := by
  have hgen : ∀ (T : Type) [inst : LinearOrder T] (p : T → Bool) (mn mx : T),
      (∀ v : T, p v = (decide (mn ≤ v) && decide (v < mx))) →
      ∀ (l : List T) (k : Nat),
        nthOut FilterIt.next (FilterIt.new l p) k
          = nthOut Bounds.next (Bounds.new l mn mx) k := by
    intro T inst p mn mx hp l k
    rw [FilterIt.nthOut_filterLoop, Bounds.nthOut_boundsLoop]
    have hpq : p = (fun v => decide (mn ≤ v) && decide (v < mx)) := funext hp
    have hfun : filterLoop (fun v : T => decide (mn ≤ v) && decide (v < mx))
        = boundsLoop mn mx := (funext (boundsLoop_eq_filterLoop mn mx)).symm
    rw [hpq, hfun]
  refine ⟨hgen, ?_, by decide, by decide, by decide, ?_⟩
  · intro k
    exact hgen Int (fun v => decide (5 ≤ v) && decide (v < 8)) 5 8 (fun _ => rfl)
      (rangeOut 1 20 1) k
  · intro k hk
    exact nthOut_none_mono FilterIt.next (fun s h => FilterIt.terminal_perm s h)
      _ 3 k (by decide) hk

theorem filter_equals_bounds_witness :
    nthOut FilterIt.next
      (FilterIt.new ([4, 6, 9] : List Int) (fun v => decide (5 ≤ v) && decide (v < 8))) 0
      = nthOut Bounds.next (Bounds.new ([4, 6, 9] : List Int) 5 8) 0 ∧
    nthOut Bounds.next (Bounds.new ([4, 6, 9] : List Int) 5 8) 0 = some 6 :=
  ⟨filter_equals_bounds.1 Int (fun v => decide (5 ≤ v) && decide (v < 8)) 5 8
    (fun _ => rfl) [4, 6, 9] 0, by decide⟩

/-- Claim C6: bound chaining composes by range intersection.
`P.bounds(a,b).bounds(c,d)` yields exactly the items of P lying in
`[a,b) ∩ [c,d) = [max a c, min b d)`, in P's order (the inner bounded
producer is represented by its output sequence `boundsOut`, which
`boundsOut_eq_filter` proves is exactly what `P.bounds(a,b)` yields).  In
particular `P.bounds(1,20).bounds(3,13).bounds(5,8)` yields the same
sequence, with the same exhaustion point, as the single `P.bounds(5,8)`. -/
theorem bounds_chaining :
    (∀ (l : List Int) (a b c d : Int) (k : Nat),
      nthOut Bounds.next ((boundsOut (l.bounds a b)).bounds c d) k
        = (l.filter (fun v => decide (max a c ≤ v) && decide (v < min b d)))[k]?) ∧
    (∀ (l : List Int) (k : Nat),
      nthOut Bounds.next
        ((boundsOut ((boundsOut (l.bounds 1 20)).bounds 3 13)).bounds 5 8) k
        = nthOut Bounds.next (l.bounds 5 8) k) := by
  constructor
  · intro l a b c d k
    rw [List.bounds_eq, List.bounds_eq, boundsOut_eq_filter, Bounds.nthOut_filter,
      List.filter_filter]
    have hcong :
        l.filter (fun v => (decide (c ≤ v) && decide (v < d))
            && (decide (a ≤ v) && decide (v < b)))
          = l.filter (fun v => decide (max a c ≤ v) && decide (v < min b d)) := by
      apply List.filter_congr
      intro v _
      by_cases h1 : a ≤ v <;> by_cases h2 : v < b <;>
        by_cases h3 : c ≤ v <;> by_cases h4 : v < d <;>
        simp [h1, h2, h3, h4, max_le_iff, lt_min_iff]
    rw [hcong]
  · intro l k
    rw [List.bounds_eq, List.bounds_eq, List.bounds_eq, List.bounds_eq]
    rw [boundsOut_eq_filter, boundsOut_eq_filter, Bounds.nthOut_filter,
      Bounds.nthOut_filter, List.filter_filter, List.filter_filter]
    have hcong :
        l.filter (fun v => ((decide ((5 : Int) ≤ v) && decide (v < 8))
              && (decide ((3 : Int) ≤ v) && decide (v < 13)))
            && (decide ((1 : Int) ≤ v) && decide (v < 20)))
          = l.filter (fun v => decide ((5 : Int) ≤ v) && decide (v < 8)) := by
      apply List.filter_congr
      intro v _
      by_cases h1 : (5 : Int) ≤ v <;> by_cases h2 : v < 8 <;>
        simp [h1, h2] <;> omega
    rw [hcong]
